import Mathlib

/-!
Simple CLI ping tool: the ICMP engine of `src/main.cpp`.

A shallow embedding of `checksum`, `ping`, `receive`, `statistics` and the
session loop of `main`, followed by the properties of the specification.

Conventions of the embedding.
* `u_char` is `Fin 256`; a buffer (`out_buffer`, `in_buffer`, or the memory a
  `u_short *` points to) is a `List Byte`.
* `u_short` loads and stores are in host order on a little-endian host (the
  platforms the Linux headers `netinet/ip_icmp.h` target in practice): the
  byte at the lower address is the low-order byte.
* `int sum` of `checksum` is a 32-bit signed integer: every addition into it
  is reduced to the range `[-2^31, 2^31)`.  `>> 16` on it is the arithmetic
  shift (floor division by `65536`) and `& 0xFFFF` is the remainder modulo
  `65536`.
* The 16-bit ICMP fields are written with truncation modulo `2^16`, and are
  compared after integer promotion, as in C++.
* The session counters `nsent`, `nreceived` are `int`s.  `nsent++` is reduced
  to the range `[-2^31, 2^31)` like `sum`.  `nreceived++` is executed only
  under the guard `nreceived != nsent`; in every run in which fewer than `2^31`
  sends have succeeded this is `nreceived < nsent < 2^31`, so the increment
  stays in range (`nreceived_increment_exact`), and it is kept as `+ 1`.
* A load beyond the end of a list reads 0; the buffers of the program have
  1024 bytes and no load of it goes beyond them.
* `(nsent - nreceived) / nsent * 100` is integer arithmetic, with truncating
  division; a zero divisor has no result.
-/

namespace Ping

/-! ## Constants -/

/-- The constant of `#define PACKET_SIZE 1024`. -/
def PACKET_SIZE : Nat := 1024

/-- The constant `ICMP_ECHO` of `netinet/ip_icmp.h`. -/
def ICMP_ECHO : Nat := 8

/-- The constant `ICMP_ECHOREPLY` of `netinet/ip_icmp.h`. -/
def ICMP_ECHOREPLY : Nat := 0

/-- The global `int data_length = 56`. -/
def data_length : Nat := 56

/-! ## Memory -/

/-- A `u_char`. -/
abbrev Byte := Fin 256

/-- Conversion of an integer value to `u_char`. -/
def toByte (n : Nat) : Byte := ⟨n % 256, Nat.mod_lt _ (by decide)⟩

/-- Load of the `u_char` at byte offset `off`. -/
def readByte (b : List Byte) (off : Nat) : Nat := (b.getD off 0).val

/-- Load of the `u_short` at byte offset `off`, host order. -/
def readWord (b : List Byte) (off : Nat) : Nat :=
  readByte b off + 256 * readByte b (off + 1)

/-- Store of a `u_char` at byte offset `off`. -/
def writeByte (b : List Byte) (off : Nat) (v : Nat) : List Byte :=
  b.set off (toByte v)

/-- Store of a `u_short` at byte offset `off`, host order; the value is
truncated to 16 bits. -/
def writeWord (b : List Byte) (off : Nat) (v : Nat) : List Byte :=
  (b.set off (toByte (v % 65536))).set (off + 1) (toByte (v % 65536 / 256))

/-- Conversion of an `int` to `u_short`. -/
def toU16 (x : Int) : Nat := (x % 65536).toNat

/-- Reduction of an integer to the range of a 32-bit signed `int`. -/
def wrapInt32 (x : Int) : Int := (x + 2147483648) % 4294967296 - 2147483648

/-! ## `checksum` -/

/-- The loop `for (; len > 1; len -= 2) sum += *buffer++;`, from remaining
length `len`, pointer offset `off` and accumulator `sum`; it returns the
remaining length, the pointer offset and the accumulator at loop exit. -/
def checksumLoop (b : List Byte) : Nat → Nat → Int → Nat × Nat × Int
  | len + 2, off, sum => checksumLoop b len (off + 2) (wrapInt32 (sum + readWord b off))
  | len, off, sum => (len, off, sum)

/-- The two folding statements and the complement:
`sum = (sum >> 16) + (sum & 0xFFFF); sum += (sum >> 16); result = ~sum;`. -/
def foldCarries (sum : Int) : Nat :=
  let sum1 := sum / 65536 + sum % 65536
  let sum2 := sum1 + sum1 / 65536
  toU16 (-sum2 - 1)

/-- The function `u_short checksum(u_short *b, int len)`. -/
def checksum (b : List Byte) (len : Int) : Nat :=
  let r := checksumLoop b len.toNat 0 0
  let sum := if r.1 = 1 then wrapInt32 (r.2.2 + readByte b r.2.1) else r.2.2
  foldCarries sum

/-! ## RFC 1071 reference, from the words of the specification -/

/-- The buffer as consecutive 16-bit host-order words; a trailing odd byte is
a word zero-padded to 16 bits. -/
def hostWords : List Byte → List Nat
  | [] => []
  | [x] => [x.val]
  | x :: y :: rest => (x.val + 256 * y.val) :: hostWords rest

/-- Ones'-complement addition of two 16-bit values: the carry out of bit 15
is added back at bit 0. -/
def onesAdd (a w : Nat) : Nat := (a + w) % 65536 + (a + w) / 65536

/-- The RFC 1071 Internet checksum: the 16-bit complement of the
ones'-complement sum of the words. -/
def rfc1071 (b : List Byte) : Nat := 65535 - (hostWords b).foldl onesAdd 0

/-! ## ICMP header fields (`struct icmp` of `netinet/ip_icmp.h`) -/

/-- Field `icmp_type` of the message that starts at byte offset `off`. -/
def icmp_type (b : List Byte) (off : Nat) : Nat := readByte b off

/-- Field `icmp_code`. -/
def icmp_code (b : List Byte) (off : Nat) : Nat := readByte b (off + 1)

/-- Field `icmp_cksum`. -/
def icmp_cksum (b : List Byte) (off : Nat) : Nat := readWord b (off + 2)

/-- Field `icmp_id`. -/
def icmp_id (b : List Byte) (off : Nat) : Nat := readWord b (off + 4)

/-- Field `icmp_seq`. -/
def icmp_seq (b : List Byte) (off : Nat) : Nat := readWord b (off + 6)

/-- Field `ip_hl` of `struct ip`: the low four bits of the first byte. -/
def ip_hl (b : List Byte) : Nat := readByte b 0 % 16

/-! ## Counters and reports -/

/-- The globals `nsent` and `nreceived`. -/
structure Counters where
  nsent : Int
  nreceived : Int
deriving DecidableEq

/-- The expression `((nsent - nreceived) / nsent * 100)` on `int`s: truncating
division, and no value when the divisor is zero. -/
def lossPercent (nsent nreceived : Int) : Option Int :=
  if nsent = 0 then none else some (Int.tdiv (nsent - nreceived) nsent * 100)

/-- The figures of the line that `receive` prints for an accepted reply. -/
structure ReplyReport where
  bytes : Int
  seq : Nat
  transmitted : Int
  received : Int
  loss : Option Int
deriving DecidableEq

/-- The figures of the block that `statistics` prints. -/
structure FinalReport where
  transmitted : Int
  received : Int
  loss : Int
deriving DecidableEq

/-- The function `void statistics(int signal)`: the final report and the status passed to
`exit`; `none` when the loss expression divides by zero. -/
def statistics (st : Counters) : Option (FinalReport × Nat) :=
  match lossPercent st.nsent st.nreceived with
  | none => none
  | some l => some (⟨st.nsent, st.nreceived, l⟩, 0)

/-! ## `ping` -/

/-- The header stores of `ping` up to `packet->icmp_id = pid`. -/
def packHeader (out : List Byte) (nsent pid : Int) : List Byte :=
  let p := writeByte out 0 ICMP_ECHO
  let p := writeByte p 1 0
  let p := writeWord p 2 0
  let p := writeWord p 6 (toU16 nsent)
  writeWord p 4 (toU16 pid)

/-- The buffer and the `packet_size` that `ping` passes to `sendto`. -/
def pack (out : List Byte) (nsent pid : Int) (dlen : Int) : List Byte × Int :=
  let p := packHeader out nsent pid
  let packet_size := 8 + dlen
  (writeWord p 2 (checksum p packet_size), packet_size)

/-- The bytes that `sendto` transmits: the first `packet_size` bytes of the
buffer. -/
def datagramOf (p : List Byte × Int) : List Byte := p.1.take p.2.toNat

/-- The body of the `try` block of `ping` after the packet is packed, given
the value `send_result` returned by `sendto`. -/
def pingTry (st : Counters) (send_result : Int) : Except String Counters :=
  if send_result ≤ 0 then .error "[ERROR] Sendto error."
  else .ok { st with nsent := wrapInt32 (st.nsent + 1) }

/-- The state that one call of `ping` leaves. -/
structure PingResult where
  counters : Counters
  out_buffer : List Byte
  packet_size : Int
  stderr : List String
deriving DecidableEq

/-- The function `void ping()`, with the payload length `dlen` (the global `data_length`)
and the result of `sendto` as inputs; the exception is caught inside. -/
def ping (st : Counters) (pid : Int) (dlen : Int) (out : List Byte)
    (send_result : Int) : PingResult :=
  let p := pack out st.nsent pid dlen
  match pingTry st send_result with
  | .ok st1 => ⟨st1, p.1, p.2, []⟩
  | .error e => ⟨st, p.1, p.2, [e]⟩

/-! ## `receive` -/

/-- One return of `recvfrom`: its return value and the content of
`in_buffer`. -/
structure Datagram where
  len : Int
  buf : List Byte
deriving DecidableEq

/-- One pass through the body of the `while` loop of `receive`. -/
def receiveIter (pid : Int) (st : Counters) (d : Datagram) :
    Counters × Option ReplyReport :=
  if d.len < 0 then (st, none)
  else
    let iphdrlen := ip_hl d.buf * 4
    let len := d.len - iphdrlen
    if len < 8 ∨ ¬ (icmp_type d.buf iphdrlen = ICMP_ECHOREPLY)
        ∨ ¬ ((icmp_id d.buf iphdrlen : Int) = pid) then (st, none)
    else
      let st1 : Counters := { st with nreceived := st.nreceived + 1 }
      (st1, some ⟨len, icmp_seq d.buf iphdrlen, st1.nsent, st1.nreceived,
        lossPercent st1.nsent st1.nreceived⟩)

/-- What a call of `receive` leaves: the counters, the lines printed, the
datagrams not consumed, and whether the loop has exited (`false`: it blocks in
`recvfrom` with no datagram left). -/
structure ReceiveResult where
  counters : Counters
  replies : List ReplyReport
  rest : List Datagram
  returned : Bool
deriving DecidableEq

/-- The function `void receive()`, over the stream of datagrams that `recvfrom` delivers. -/
def receive (pid : Int) : Counters → List Datagram → ReceiveResult
  | st, [] => ⟨st, [], [], decide (st.nreceived = st.nsent)⟩
  | st, d :: ds =>
    if st.nreceived ≠ st.nsent then
      let r := receiveIter pid st d
      let res := receive pid r.1 ds
      { res with replies := r.2.toList ++ res.replies }
    else ⟨st, [], d :: ds, true⟩

/-! ## The session loop of `main` -/

/-- What a run of the session loop leaves. -/
structure SessionResult where
  counters : Counters
  out_buffer : List Byte
  replies : List ReplyReport
  blocked : Bool
deriving DecidableEq

/-- The loop `while (1) { ping(); receive(); sleep(1); }`, for the cycles whose
`sendto` results are listed, over the stream of datagrams; it stops at the end
of the list of cycles, or earlier where `receive` blocks. -/
def session (pid : Int) (dlen : Int) :
    Counters → List Byte → List Int → List Datagram → SessionResult
  | st, out, [], _ => ⟨st, out, [], false⟩
  | st, out, r :: rs, ds =>
    let p := ping st pid dlen out r
    let rr := receive pid p.counters ds
    if rr.returned then
      let res := session pid dlen rr.counters p.out_buffer rs rr.rest
      { res with replies := rr.replies ++ res.replies }
    else ⟨rr.counters, p.out_buffer, rr.replies, true⟩

/-- The counters at program start: `int nsent=0, nreceived=0;`. -/
def initial : Counters := ⟨0, 0⟩

/-- The counter states the session loop can be in, at any point of any run.
A run over finitely many cycles and datagrams ends after its last cycle or
where `receive` waits in `recvfrom`, so the state at each point of the loop
(before `ping`, and at each evaluation of the guard of the drain loop) is the
final state of such a run. -/
def Reachable (pid : Int) (dlen : Int) (st : Counters) : Prop :=
  ∃ (out : List Byte) (rs : List Int) (ds : List Datagram),
    (session pid dlen initial out rs ds).counters = st

/-- The number of positive results in a list of results of `sendto`. -/
def successfulSends : List Int → Nat
  | [] => 0
  | r :: rs => (if 0 < r then 1 else 0) + successfulSends rs

/-- The counter states the session loop can be in at any point of a run in
which fewer than `2^31` sends succeed. -/
def ReachableWithin (pid : Int) (dlen : Int) (st : Counters) : Prop :=
  ∃ (out : List Byte) (rs : List Int) (ds : List Datagram),
    successfulSends rs < 2147483648 ∧ (session pid dlen initial out rs ds).counters = st

/-! ## Inputs of the scenarios -/

/-- The condition under which `receive` does not `continue`: `recvfrom`
succeeded and none of the three tests of the `if` holds. -/
def accepted (pid : Int) (d : Datagram) : Prop :=
  0 ≤ d.len ∧ 8 ≤ d.len - ((ip_hl d.buf * 4 : Nat) : Int)
    ∧ icmp_type d.buf (ip_hl d.buf * 4) = ICMP_ECHOREPLY
    ∧ (icmp_id d.buf (ip_hl d.buf * 4) : Int) = pid

instance (pid : Int) (d : Datagram) : Decidable (accepted pid d) :=
  inferInstanceAs (Decidable (0 ≤ d.len ∧ 8 ≤ d.len - ((ip_hl d.buf * 4 : Nat) : Int)
    ∧ icmp_type d.buf (ip_hl d.buf * 4) = ICMP_ECHOREPLY
    ∧ (icmp_id d.buf (ip_hl d.buf * 4) : Int) = pid))

/-- The inputs of one cycle in which the send succeeds or fails with
`send_result`, and the drain loop receives `discards` and then `reply`. -/
structure Cycle where
  send_result : Int
  discards : List Datagram
  reply : Datagram
deriving DecidableEq

/-- The results of `sendto` over a list of cycles. -/
def sendResults : List Cycle → List Int
  | [] => []
  | c :: cs => c.send_result :: sendResults cs

/-- The datagrams delivered over a list of cycles, in order. -/
def datagramStream : List Cycle → List Datagram
  | [] => []
  | c :: cs => c.discards ++ c.reply :: datagramStream cs

/-- The 16-bit value that end-around-carry addition gives for words of
arithmetic total `n`: zero for `n = 0`, otherwise the representative of `n`
modulo `65535` in `1 .. 65535`. -/
def onesNorm (n : Nat) : Nat := if n = 0 then 0 else (n - 1) % 65535 + 1

/-! ## Arithmetic of the accumulator -/

theorem wrapInt32_add_left (t w : Int) :
    wrapInt32 (wrapInt32 t + w) = wrapInt32 (t + w) := by
  unfold wrapInt32; omega

theorem wrapInt32_of_range (t : Int) (h0 : -2147483648 ≤ t) (h1 : t < 2147483648) :
    wrapInt32 t = t := by
  unfold wrapInt32; omega

theorem onesNorm_split (q r : Nat) (hr : r < 65536) (hq : q < 32768) :
    onesNorm (65536 * q + r) = if q + r < 65536 then q + r else q + r - 65535 := by
  unfold onesNorm
  by_cases h0 : 65536 * q + r = 0
  · have hq0 : q = 0 := by omega
    have hr0 : r = 0 := by omega
    subst hq0 hr0; simp
  · rw [if_neg h0]
    by_cases hs : q + r < 65536
    · rw [if_pos hs]
      have e : 65536 * q + r - 1 = (q + r - 1) + 65535 * q := by omega
      rw [e, Nat.add_mul_mod_self_left, Nat.mod_eq_of_lt (by omega)]
      omega
    · rw [if_neg hs]
      have e : 65536 * q + r - 1 = (q + r - 65536) + 65535 * (q + 1) := by omega
      rw [e, Nat.add_mul_mod_self_left, Nat.mod_eq_of_lt (by omega)]
      omega

theorem foldCarries_split (q r : Nat) (hr : r < 65536) (hq : q < 32768) :
    foldCarries (65536 * (q : Int) + r) =
      65535 - (if q + r < 65536 then q + r else q + r - 65535) := by
  have h1 : (65536 * (q : Int) + r) / 65536 = q := by omega
  have h2 : (65536 * (q : Int) + r) % 65536 = r := by omega
  simp only [foldCarries, toU16]
  rw [h1, h2]
  split <;> omega

theorem foldCarries_of_small (n : Nat) (h : n < 2147483648) :
    foldCarries (wrapInt32 n) = 65535 - onesNorm n := by
  rw [wrapInt32_of_range _ (by omega) (by omega)]
  have hn : n = 65536 * (n / 65536) + n % 65536 := by omega
  have hlt : n % 65536 < 65536 := by omega
  have hql : n / 65536 < 32768 := by omega
  have hc : (n : Int) = 65536 * ((n / 65536 : Nat) : Int) + ((n % 65536 : Nat) : Int) := by
    omega
  rw [hc, foldCarries_split _ _ hlt hql]
  conv_rhs => rw [hn]
  rw [onesNorm_split _ _ hlt hql]

theorem onesAdd_onesNorm (a w : Nat) (hw : w ≤ 65535) :
    onesAdd (onesNorm a) w = onesNorm (a + w) := by
  unfold onesAdd onesNorm
  split <;> split <;> omega

theorem foldl_onesAdd (ws : List Nat) (hws : ∀ w ∈ ws, w ≤ 65535) (a : Nat) :
    ws.foldl onesAdd (onesNorm a) = onesNorm (a + ws.sum) := by
  induction ws generalizing a with
  | nil => simp
  | cons w ws ih =>
    have hw : w ≤ 65535 := hws w (List.mem_cons_self _ _)
    have hrest : ∀ v ∈ ws, v ≤ 65535 := fun v hv => hws v (List.mem_cons_of_mem _ hv)
    simp only [List.foldl_cons, List.sum_cons]
    rw [onesAdd_onesNorm a w hw, ih hrest, Nat.add_assoc]

/-! ## The summation loop -/

theorem readByte_cons_succ (x : Byte) (b : List Byte) (off : Nat) :
    readByte (x :: b) (off + 1) = readByte b off := by
  simp [readByte]

theorem readWord_cons_cons (x y : Byte) (b : List Byte) (off : Nat) :
    readWord (x :: y :: b) (off + 2) = readWord b off := by
  simp [readWord, readByte]

theorem checksumLoop_cons_cons (x y : Byte) (b : List Byte) (len off : Nat) (s : Int) :
    checksumLoop (x :: y :: b) len (off + 2) s =
      ((checksumLoop b len off s).1, (checksumLoop b len off s).2.1 + 2,
        (checksumLoop b len off s).2.2) := by
  induction len, off, s using checksumLoop.induct b with
  | case1 len off s ih =>
    rw [checksumLoop, checksumLoop, readWord_cons_cons]
    exact ih
  | case2 len off s hlen =>
    rw [checksumLoop, checksumLoop]
    · intro n h; exact hlen n h
    · intro n h; exact hlen n h

theorem checksum_accumulates (b : List Byte) (t : Int) :
    (if (checksumLoop b b.length 0 (wrapInt32 t)).1 = 1 then
        wrapInt32 ((checksumLoop b b.length 0 (wrapInt32 t)).2.2
          + readByte b (checksumLoop b b.length 0 (wrapInt32 t)).2.1)
      else (checksumLoop b b.length 0 (wrapInt32 t)).2.2)
      = wrapInt32 (t + ((hostWords b).sum : Nat)) := by
  induction b using hostWords.induct generalizing t with
  | case1 => simp [checksumLoop, hostWords]
  | case2 x =>
    simp only [List.length_singleton, checksumLoop, hostWords, List.sum_cons, List.sum_nil,
      if_true, readByte, List.getD_cons_zero, Nat.add_zero]
    rw [wrapInt32_add_left]
  | case3 x y rest ih =>
    have hw : readWord (x :: y :: rest) 0 = x.val + 256 * y.val := by
      simp [readWord, readByte]
    simp only [List.length_cons, hostWords, List.sum_cons]
    rw [checksumLoop, wrapInt32_add_left, hw]
    have hs := checksumLoop_cons_cons x y rest rest.length 0
      (wrapInt32 (t + ((x.val + 256 * y.val : Nat) : Int)))
    rw [Nat.zero_add] at hs
    rw [hs]
    simp only [readByte_cons_succ]
    rw [ih]
    congr 1
    push_cast
    ring

theorem checksum_eq_foldCarries (b : List Byte) :
    checksum b (b.length : Int) = foldCarries (wrapInt32 ((hostWords b).sum : Nat)) := by
  have h := checksum_accumulates b 0
  have h0 : wrapInt32 0 = 0 := by decide
  rw [h0, Int.zero_add] at h
  simp only [checksum, Int.toNat_ofNat]
  rw [h]

theorem hostWords_le (b : List Byte) : ∀ w ∈ hostWords b, w ≤ 65535 := by
  induction b using hostWords.induct with
  | case1 => simp [hostWords]
  | case2 x =>
    intro w hw
    simp only [hostWords, List.mem_singleton] at hw
    have := x.isLt
    omega
  | case3 x y rest ih =>
    intro w hw
    simp only [hostWords, List.mem_cons] at hw
    rcases hw with hw | hw
    · have := x.isLt
      have := y.isLt
      omega
    · exact ih w hw

theorem hostWords_sum_le (b : List Byte) : (hostWords b).sum * 2 ≤ 65535 * b.length := by
  induction b using hostWords.induct with
  | case1 => simp [hostWords]
  | case2 x =>
    simp only [hostWords, List.sum_cons, List.sum_nil, List.length_singleton]
    have := x.isLt
    omega
  | case3 x y rest ih =>
    simp only [hostWords, List.sum_cons, List.length_cons]
    have := x.isLt
    have := y.isLt
    omega

theorem rfc1071_eq (b : List Byte) : rfc1071 b = 65535 - onesNorm (hostWords b).sum := by
  have h := foldl_onesAdd (hostWords b) (hostWords_le b) 0
  have h0 : onesNorm 0 = 0 := by decide
  rw [h0, Nat.zero_add] at h
  rw [rfc1071, h]

theorem hostWords_replicate (n : Nat) :
    hostWords (List.replicate (2 * n) (255 : Byte)) = List.replicate n 65535 := by
  induction n with
  | zero => rfl
  | succ n ih =>
    have e : 2 * (n + 1) = 2 * n + 1 + 1 := by ring
    rw [e, List.replicate_succ, List.replicate_succ, hostWords, ih, List.replicate_succ]
    rfl

/-! ## `checksum` reads only the first `len` bytes -/

theorem readByte_take (b : List Byte) (n i : Nat) (h : i < n) :
    readByte (b.take n) i = readByte b i := by
  simp [readByte, List.getD_eq_getElem?_getD, List.getElem?_take, h]

theorem checksumLoop_congr (b c : List Byte) (len off : Nat) (s : Int)
    (h : ∀ i, i < off + len → readByte b i = readByte c i) :
    checksumLoop b len off s = checksumLoop c len off s := by
  induction len, off, s using checksumLoop.induct b with
  | case1 len off s ih =>
    have hw : readWord b off = readWord c off := by
      unfold readWord
      rw [h off (by omega), h (off + 1) (by omega)]
    rw [checksumLoop, checksumLoop, ← hw]
    exact ih (fun i hi => h i (by omega))
  | case2 len off s hlen =>
    rw [checksumLoop, checksumLoop]
    · intro n hn; exact hlen n hn
    · intro n hn; exact hlen n hn

theorem checksumLoop_exit (b : List Byte) (len off : Nat) (s : Int) :
    (checksumLoop b len off s).1 = len % 2
      ∧ (checksumLoop b len off s).2.1 + len % 2 = off + len := by
  induction len, off, s using checksumLoop.induct b with
  | case1 len off s ih =>
    rw [checksumLoop]
    constructor
    · rw [ih.1]; omega
    · have := ih.2; omega
  | case2 len off s hlen =>
    rw [checksumLoop]
    · have h2 : len < 2 := by
        by_contra hc
        exact hlen (len - 2) (by omega)
      constructor
      · show len = len % 2
        omega
      · show off + len % 2 = off + len
        omega
    · intro n hn; exact hlen n hn

theorem checksum_congr (b c : List Byte) (len : Nat)
    (h : ∀ i, i < len → readByte b i = readByte c i) :
    checksum b (len : Int) = checksum c (len : Int) := by
  have hl := checksumLoop_congr b c len 0 0 (fun i hi => h i (by omega))
  have he := checksumLoop_exit c len 0 0
  simp only [checksum, Int.toNat_ofNat]
  rw [hl]
  by_cases h1 : (checksumLoop c len 0 0).1 = 1
  · rw [if_pos h1, if_pos h1, h _ (by omega)]
  · rw [if_neg h1, if_neg h1]

theorem checksum_of_take (b : List Byte) (len : Nat) (h : len ≤ b.length) :
    checksum b (len : Int) = foldCarries (wrapInt32 ((hostWords (b.take len)).sum : Nat)) := by
  have hc := checksum_congr b (b.take len) len (fun i hi => (readByte_take b len i hi).symm)
  have hl : (b.take len).length = len := by simp [h]
  have hf := checksum_eq_foldCarries (b.take len)
  rw [hl] at hf
  rw [hc, hf]

theorem foldCarries_lt (s : Int) : foldCarries s < 65536 := by
  simp only [foldCarries, toU16]
  omega

theorem checksum_lt (b : List Byte) (len : Int) : checksum b len < 65536 :=
  foldCarries_lt _

/-! ## Storing the checksum -/

theorem length_writeWord (b : List Byte) (off v : Nat) :
    (writeWord b off v).length = b.length := by
  simp [writeWord]

theorem take_writeWord (b : List Byte) (n off v : Nat) :
    (writeWord b off v).take n = writeWord (b.take n) off v := by
  simp [writeWord, List.set_take]

theorem hostWords_writeWord_two (b : List Byte) (h4 : 4 ≤ b.length)
    (h2 : readByte b 2 = 0) (h3 : readByte b 3 = 0) (c : Nat) (hc : c < 65536) :
    (hostWords (writeWord b 2 c)).sum = (hostWords b).sum + c := by
  match b, h4 with
  | b0 :: b1 :: b2 :: b3 :: rest, _ =>
    have e2 : b2.val = 0 := h2
    have e3 : b3.val = 0 := h3
    have hw : writeWord (b0 :: b1 :: b2 :: b3 :: rest) 2 c
        = b0 :: b1 :: toByte (c % 65536) :: toByte (c % 65536 / 256) :: rest := rfl
    rw [hw]
    simp only [hostWords, List.sum_cons, toByte, e2, e3]
    omega

theorem onesNorm_complement (n : Nat) : onesNorm (n + (65535 - onesNorm n)) = 65535 := by
  unfold onesNorm
  split <;> split <;> omega

theorem checksum_store_validates (b : List Byte) (h4 : 4 ≤ b.length)
    (hlen : b.length ≤ 1024) (h2 : readByte b 2 = 0) (h3 : readByte b 3 = 0) :
    checksum (writeWord b 2 (checksum b (b.length : Int))) (b.length : Int) = 0 := by
  have hs := hostWords_sum_le b
  have hc : checksum b (b.length : Int) = 65535 - onesNorm (hostWords b).sum := by
    rw [checksum_eq_foldCarries, foldCarries_of_small _ (by omega)]
  have hlt := checksum_lt b (b.length : Int)
  have hsum := hostWords_writeWord_two b h4 h2 h3 _ hlt
  have hf := checksum_eq_foldCarries (writeWord b 2 (checksum b (b.length : Int)))
  rw [length_writeWord, hsum, foldCarries_of_small _ (by omega)] at hf
  rw [hf, hc, onesNorm_complement]

/-! ## The packet built by `ping` -/

theorem packHeader_length (out : List Byte) (nsent pid : Int) :
    (packHeader out nsent pid).length = out.length := by
  simp [packHeader, writeWord, writeByte]

theorem packHeader_fields (out : List Byte) (nsent pid : Int) (h8 : 8 ≤ out.length) :
    readByte (packHeader out nsent pid) 0 = ICMP_ECHO
    ∧ readByte (packHeader out nsent pid) 1 = 0
    ∧ readByte (packHeader out nsent pid) 2 = 0
    ∧ readByte (packHeader out nsent pid) 3 = 0
    ∧ readWord (packHeader out nsent pid) 4 = toU16 pid
    ∧ readWord (packHeader out nsent pid) 6 = toU16 nsent := by
  match out, h8 with
  | o0 :: o1 :: o2 :: o3 :: o4 :: o5 :: o6 :: o7 :: rest, _ =>
    have hp : packHeader (o0 :: o1 :: o2 :: o3 :: o4 :: o5 :: o6 :: o7 :: rest) nsent pid
        = toByte ICMP_ECHO :: toByte 0 :: toByte (0 % 65536) :: toByte (0 % 65536 / 256)
          :: toByte (toU16 pid % 65536) :: toByte (toU16 pid % 65536 / 256)
          :: toByte (toU16 nsent % 65536) :: toByte (toU16 nsent % 65536 / 256) :: rest := rfl
    have hi : toU16 pid < 65536 := by unfold toU16; omega
    have hn : toU16 nsent < 65536 := by unfold toU16; omega
    rw [hp]
    refine ⟨rfl, rfl, rfl, rfl, ?_, ?_⟩
    · show (toByte (toU16 pid % 65536)).val + 256 * (toByte (toU16 pid % 65536 / 256)).val
        = toU16 pid
      simp only [toByte]
      omega
    · show (toByte (toU16 nsent % 65536)).val
        + 256 * (toByte (toU16 nsent % 65536 / 256)).val = toU16 nsent
      simp only [toByte]
      omega

theorem readByte_writeWord_of_ne (b : List Byte) (off v i : Nat) (h0 : i ≠ off)
    (h1 : i ≠ off + 1) : readByte (writeWord b off v) i = readByte b i := by
  simp [readByte, writeWord, List.getD_eq_getElem?_getD, List.getElem?_set_ne, Ne.symm h0,
    Ne.symm h1]

theorem pack_validates (out : List Byte) (nsent pid : Int) (P : Nat)
    (hout : out.length = PACKET_SIZE) (hP : 8 + P ≤ 1024) :
    (pack out nsent pid P).2 = ((8 + P : Nat) : Int)
    ∧ (datagramOf (pack out nsent pid P)).length = 8 + P
    ∧ checksum (pack out nsent pid P).1 (pack out nsent pid P).2 = 0
    ∧ checksum (datagramOf (pack out nsent pid P)) ((8 + P : Nat) : Int) = 0 := by
  have hsz : (8 : Int) + (P : Int) = ((8 + P : Nat) : Int) := by push_cast; ring
  have hpl : (packHeader out nsent pid).length = 1024 := by
    rw [packHeader_length, hout]; rfl
  have hf := packHeader_fields out nsent pid (by rw [hout]; decide)
  have htl : ((packHeader out nsent pid).take (8 + P)).length = 8 + P := by
    rw [List.length_take, hpl]; omega
  have hck : checksum (packHeader out nsent pid) ((8 + P : Nat) : Int)
      = checksum ((packHeader out nsent pid).take (8 + P))
          ((((packHeader out nsent pid).take (8 + P)).length : Nat) : Int) := by
    rw [htl]
    exact checksum_congr _ _ _ (fun i hi => (readByte_take _ _ i hi).symm)
  have hcore := checksum_store_validates ((packHeader out nsent pid).take (8 + P))
    (by omega) (by omega)
    (by rw [readByte_take _ _ _ (by omega)]; exact hf.2.2.1)
    (by rw [readByte_take _ _ _ (by omega)]; exact hf.2.2.2.1)
  rw [← hck, ← take_writeWord, htl] at hcore
  have hdg : datagramOf (pack out nsent pid P)
      = (writeWord (packHeader out nsent pid) 2
          (checksum (packHeader out nsent pid) ((8 + P : Nat) : Int))).take (8 + P) := by
    simp only [datagramOf, pack, hsz, Int.toNat_ofNat]
  refine ⟨hsz, ?_, ?_, ?_⟩
  · rw [hdg, List.length_take, length_writeWord, hpl]; omega
  · simp only [pack, hsz]
    rw [checksum_congr _ _ _ (fun i hi => (readByte_take _ _ i hi).symm)]
    exact hcore
  · rw [hdg]; exact hcore

theorem ping_buffer (st : Counters) (pid dlen : Int) (out : List Byte) (r : Int) :
    (ping st pid dlen out r).out_buffer = (pack out st.nsent pid dlen).1
    ∧ (ping st pid dlen out r).packet_size = (pack out st.nsent pid dlen).2 := by
  unfold ping
  cases pingTry st r <;> exact ⟨rfl, rfl⟩

theorem pack_fields (out : List Byte) (nsent pid : Int) (P : Nat)
    (hout : out.length = PACKET_SIZE) :
    icmp_type (datagramOf (pack out nsent pid P)) 0 = ICMP_ECHO
    ∧ icmp_code (datagramOf (pack out nsent pid P)) 0 = 0
    ∧ icmp_id (datagramOf (pack out nsent pid P)) 0 = toU16 pid
    ∧ icmp_seq (datagramOf (pack out nsent pid P)) 0 = toU16 nsent := by
  have hsz : (8 : Int) + (P : Int) = ((8 + P : Nat) : Int) := by push_cast; ring
  have hf := packHeader_fields out nsent pid (by rw [hout]; decide)
  have hdg : datagramOf (pack out nsent pid P)
      = (writeWord (packHeader out nsent pid) 2
          (checksum (packHeader out nsent pid) ((8 + P : Nat) : Int))).take (8 + P) := by
    simp only [datagramOf, pack, hsz, Int.toNat_ofNat]
  have hrd : ∀ i, i < 8 → i ≠ 2 → i ≠ 3 →
      readByte (datagramOf (pack out nsent pid P)) i
        = readByte (packHeader out nsent pid) i := by
    intro i hi h2 h3
    rw [hdg, readByte_take _ _ _ (by omega), readByte_writeWord_of_ne _ _ _ _ h2 h3]
  have h4 := hf.2.2.2.2.1
  have h6 := hf.2.2.2.2.2
  unfold readWord at h4 h6
  simp only [icmp_type, icmp_code, icmp_id, icmp_seq, readWord, Nat.zero_add]
  rw [hrd 0 (by omega) (by omega) (by omega), hrd 1 (by omega) (by omega) (by omega),
    hrd 4 (by omega) (by omega) (by omega), hrd 5 (by omega) (by omega) (by omega),
    hrd 6 (by omega) (by omega) (by omega), hrd 7 (by omega) (by omega) (by omega)]
  exact ⟨hf.1, hf.2.1, h4, h6⟩

/-! ## The counters along the session loop -/

theorem counters_of_ping (st : Counters) (pid dlen : Int) (out : List Byte) (r : Int) :
    (ping st pid dlen out r).counters
      = if 0 < r then ⟨wrapInt32 (st.nsent + 1), st.nreceived⟩ else st := by
  unfold ping pingTry
  by_cases h : r ≤ 0
  · have h2 : ¬ 0 < r := by omega
    simp [h, h2]
  · have h2 : 0 < r := by omega
    simp [h, h2]

theorem receiveIter_of_accepted (pid : Int) (st : Counters) (d : Datagram)
    (h : accepted pid d) :
    receiveIter pid st d =
      (⟨st.nsent, st.nreceived + 1⟩,
        some ⟨d.len - ((ip_hl d.buf * 4 : Nat) : Int), icmp_seq d.buf (ip_hl d.buf * 4),
          st.nsent, st.nreceived + 1, lossPercent st.nsent (st.nreceived + 1)⟩) := by
  obtain ⟨h0, h8, ht, hi⟩ := h
  have hneg : ¬ d.len < 0 := by omega
  have hc : ¬ (d.len - ((ip_hl d.buf * 4 : Nat) : Int) < 8
      ∨ ¬ (icmp_type d.buf (ip_hl d.buf * 4) = ICMP_ECHOREPLY)
      ∨ ¬ ((icmp_id d.buf (ip_hl d.buf * 4) : Int) = pid)) := by
    simp only [not_or, not_not, not_lt]
    exact ⟨h8, ht, hi⟩
  simp only [receiveIter, if_neg hneg]
  rw [if_neg hc]

theorem receiveIter_of_not_accepted (pid : Int) (st : Counters) (d : Datagram)
    (h : ¬ accepted pid d) : receiveIter pid st d = (st, none) := by
  unfold receiveIter
  by_cases hneg : d.len < 0
  · rw [if_pos hneg]
  · rw [if_neg hneg]
    simp only []
    rw [if_pos]
    by_contra hc
    simp only [not_or, not_not, not_lt] at hc
    exact h ⟨by omega, hc.1, hc.2.1, hc.2.2⟩

theorem receive_of_eq (pid : Int) (st : Counters) (ds : List Datagram)
    (h : st.nreceived = st.nsent) : receive pid st ds = ⟨st, [], ds, true⟩ := by
  cases ds with
  | nil => simp [receive, h]
  | cons d ds => simp [receive, h]

theorem receive_skip (pid : Int) (st : Counters) (h : st.nreceived ≠ st.nsent)
    (discards : List Datagram) (hd : ∀ d ∈ discards, ¬ accepted pid d)
    (rest : List Datagram) :
    receive pid st (discards ++ rest) = receive pid st rest := by
  induction discards with
  | nil => rfl
  | cons d ds ih =>
    have hd0 := hd d (List.mem_cons_self _ _)
    have hds : ∀ e ∈ ds, ¬ accepted pid e := fun e he => hd e (List.mem_cons_of_mem _ he)
    rw [List.cons_append, receive, if_pos h, receiveIter_of_not_accepted pid st d hd0]
    simp only [Option.toList, List.nil_append]
    exact ih hds

theorem receive_cycle (pid : Int) (st : Counters) (h : st.nreceived + 1 = st.nsent)
    (discards : List Datagram) (hd : ∀ d ∈ discards, ¬ accepted pid d)
    (reply : Datagram) (hr : accepted pid reply) (rest : List Datagram) :
    receive pid st (discards ++ reply :: rest) =
      ⟨⟨st.nsent, st.nsent⟩,
        [⟨reply.len - ((ip_hl reply.buf * 4 : Nat) : Int),
          icmp_seq reply.buf (ip_hl reply.buf * 4), st.nsent, st.nsent,
          lossPercent st.nsent st.nsent⟩], rest, true⟩ := by
  have hne : st.nreceived ≠ st.nsent := by omega
  rw [receive_skip pid st hne discards hd, receive, if_pos hne,
    receiveIter_of_accepted pid st reply hr, h]
  simp only []
  rw [receive_of_eq pid ⟨st.nsent, st.nsent⟩ rest rfl]
  rfl

theorem lossPercent_self (n : Int) (h : 0 < n) : lossPercent n n = some 0 := by
  unfold lossPercent
  rw [if_neg (by omega)]
  simp

theorem session_cycles (pid dlen : Int) (cycles : List Cycle) :
    ∀ (st : Counters) (out : List Byte), st.nreceived = st.nsent → 0 ≤ st.nsent →
      st.nsent + cycles.length ≤ 2147483647 →
      (∀ c ∈ cycles, 0 < c.send_result ∧ (∀ d ∈ c.discards, ¬ accepted pid d)
        ∧ accepted pid c.reply) →
      (session pid dlen st out (sendResults cycles) (datagramStream cycles)).counters
          = ⟨st.nsent + cycles.length, st.nsent + cycles.length⟩
        ∧ (session pid dlen st out (sendResults cycles) (datagramStream cycles)).blocked
          = false
        ∧ (session pid dlen st out (sendResults cycles)
            (datagramStream cycles)).replies.length = cycles.length
        ∧ ∀ rep ∈ (session pid dlen st out (sendResults cycles)
            (datagramStream cycles)).replies,
            rep.loss = some 0 ∧ rep.transmitted = rep.received := by
  induction cycles with
  | nil =>
    intro st out heq _ _ _
    simp only [sendResults, datagramStream, session, List.length_nil, Nat.cast_zero,
      Int.add_zero, List.not_mem_nil, false_implies, implies_true, and_true]
    cases st
    simp only [Counters.mk.injEq, true_and] at heq ⊢
    exact heq
  | cons c cs ih =>
    intro st out heq h0 hb hall
    obtain ⟨hs, hd, hr⟩ := hall c (List.mem_cons_self _ _)
    have hrest : ∀ e ∈ cs, 0 < e.send_result ∧ (∀ d ∈ e.discards, ¬ accepted pid d)
        ∧ accepted pid e.reply := fun e he => hall e (List.mem_cons_of_mem _ he)
    have hlen : ((c :: cs).length : Int) = cs.length + 1 := by
      rw [List.length_cons]; push_cast; rfl
    have hp : (ping st pid dlen out c.send_result).counters
        = ⟨st.nsent + 1, st.nreceived⟩ := by
      rw [counters_of_ping, if_pos hs, wrapInt32_of_range _ (by omega) (by omega)]
    have hrc := receive_cycle pid ⟨st.nsent + 1, st.nreceived⟩ (by simp [heq])
      c.discards hd c.reply hr (datagramStream cs)
    have hi := ih ⟨st.nsent + 1, st.nsent + 1⟩
      (ping st pid dlen out c.send_result).out_buffer rfl (by simp only []; omega)
      (by simp only []; omega) hrest
    simp only [sendResults, datagramStream, session, hp, hrc, if_true, List.length_cons,
      List.length_append, List.length_singleton, List.mem_append, List.mem_singleton]
    simp only [] at hi
    refine ⟨?_, hi.2.1, ?_, ?_⟩
    · rw [hi.1]; push_cast; congr 1 <;> ring
    · rw [hi.2.2.1, List.length_nil]; omega
    · intro rep hrep
      rcases hrep with hrep | hrep
      · subst hrep
        exact ⟨lossPercent_self _ (by omega), rfl⟩
      · exact hi.2.2.2 rep hrep

theorem receive_invariant (pid : Int) (ds : List Datagram) :
    ∀ st : Counters, 0 ≤ st.nreceived → st.nreceived ≤ st.nsent →
      st.nsent ≤ st.nreceived + 1 →
      0 ≤ (receive pid st ds).counters.nreceived
        ∧ (receive pid st ds).counters.nreceived ≤ (receive pid st ds).counters.nsent
        ∧ (receive pid st ds).counters.nsent ≤ (receive pid st ds).counters.nreceived + 1 := by
  induction ds with
  | nil => intro st h0 h1 h2; exact ⟨h0, h1, h2⟩
  | cons d ds ih =>
    intro st h0 h1 h2
    by_cases hg : st.nreceived ≠ st.nsent
    · rw [receive, if_pos hg]
      by_cases ha : accepted pid d
      · rw [receiveIter_of_accepted pid st d ha]
        exact ih ⟨st.nsent, st.nreceived + 1⟩ (by simp only []; omega)
          (by simp only []; omega) (by simp only []; omega)
      · rw [receiveIter_of_not_accepted pid st d ha]
        exact ih st h0 h1 h2
    · rw [receive, if_neg hg]
      exact ⟨h0, h1, h2⟩

theorem receive_returned_iff (pid : Int) (ds : List Datagram) :
    ∀ st : Counters, (receive pid st ds).returned = true ↔
      (receive pid st ds).counters.nreceived = (receive pid st ds).counters.nsent := by
  induction ds with
  | nil => intro st; simp [receive]
  | cons d ds ih =>
    intro st
    by_cases hg : st.nreceived ≠ st.nsent
    · rw [receive, if_pos hg]
      exact ih _
    · rw [receive, if_neg hg]
      simp only [true_iff]
      exact not_not.mp hg

theorem receive_nsent (pid : Int) (ds : List Datagram) :
    ∀ st : Counters, (receive pid st ds).counters.nsent = st.nsent := by
  induction ds with
  | nil => intro st; rfl
  | cons d ds ih =>
    intro st
    by_cases hg : st.nreceived ≠ st.nsent
    · rw [receive, if_pos hg]
      by_cases ha : accepted pid d
      · rw [receiveIter_of_accepted pid st d ha]
        exact ih _
      · rw [receiveIter_of_not_accepted pid st d ha]
        exact ih _
    · rw [receive, if_neg hg]

theorem session_invariant (pid dlen : Int) (rs : List Int) :
    ∀ (st : Counters) (out : List Byte) (ds : List Datagram),
      st.nreceived = st.nsent → 0 ≤ st.nsent →
      st.nsent + successfulSends rs ≤ 2147483647 →
      0 ≤ (session pid dlen st out rs ds).counters.nreceived
        ∧ (session pid dlen st out rs ds).counters.nreceived
            ≤ (session pid dlen st out rs ds).counters.nsent
        ∧ (session pid dlen st out rs ds).counters.nsent
            ≤ (session pid dlen st out rs ds).counters.nreceived + 1
        ∧ (session pid dlen st out rs ds).counters.nsent
            ≤ st.nsent + successfulSends rs := by
  induction rs with
  | nil =>
    intro st out ds heq h0 _
    simp only [session, successfulSends]
    omega
  | cons r rs ih =>
    intro st out ds heq h0 hb
    have hp := counters_of_ping st pid dlen out r
    have hss : (successfulSends (r :: rs) : Int)
        = (if 0 < r then 1 else 0) + (successfulSends rs : Int) := by
      simp only [successfulSends]
      split <;> simp
    have hpi : 0 ≤ (ping st pid dlen out r).counters.nreceived
        ∧ (ping st pid dlen out r).counters.nreceived
            ≤ (ping st pid dlen out r).counters.nsent
        ∧ (ping st pid dlen out r).counters.nsent
            ≤ (ping st pid dlen out r).counters.nreceived + 1
        ∧ (ping st pid dlen out r).counters.nsent + successfulSends rs
            ≤ st.nsent + successfulSends (r :: rs) := by
      rw [hp, hss]
      by_cases hr : 0 < r
      · rw [if_pos hr, if_pos hr] at *
        rw [wrapInt32_of_range _ (by omega) (by omega)]
        simp only []
        omega
      · rw [if_neg hr, if_neg hr]
        omega
    have hri := receive_invariant pid ds _ hpi.1 hpi.2.1 hpi.2.2.1
    have hns := receive_nsent pid ds (ping st pid dlen out r).counters
    rw [session]
    simp only []
    split
    · rename_i hret
      have heq2 := (receive_returned_iff pid ds _).mp hret
      have hi := ih (receive pid (ping st pid dlen out r).counters ds).counters
        (ping st pid dlen out r).out_buffer
        (receive pid (ping st pid dlen out r).counters ds).rest heq2 (by omega) (by omega)
      exact ⟨hi.1, hi.2.1, hi.2.2.1, le_trans hi.2.2.2 (by omega)⟩
    · have h0s : (0 : Int) ≤ successfulSends rs := Int.ofNat_nonneg _
      exact ⟨hri.1, hri.2.1, hri.2.2, le_trans (le_of_eq hns) (by omega)⟩

theorem nreceived_increment_exact (pid dlen : Int) (st : Counters)
    (h : ReachableWithin pid dlen st) (hg : st.nreceived ≠ st.nsent) :
    wrapInt32 (st.nreceived + 1) = st.nreceived + 1 := by
  obtain ⟨out, rs, ds, hb, hs⟩ := h
  have hinv := session_invariant pid dlen rs initial out ds rfl (by decide)
    (by simp only [initial]; omega)
  rw [hs] at hinv
  simp only [initial] at hinv
  exact wrapInt32_of_range _ (by omega) (by omega)

theorem sendResults_append (a b : List Cycle) :
    sendResults (a ++ b) = sendResults a ++ sendResults b := by
  induction a with
  | nil => rfl
  | cons c cs ih => rw [List.cons_append, sendResults, ih, sendResults, List.cons_append]

theorem datagramStream_append (a b : List Cycle) :
    datagramStream (a ++ b) = datagramStream a ++ datagramStream b := by
  induction a with
  | nil => rfl
  | cons c cs ih =>
    rw [List.cons_append, datagramStream, ih, datagramStream, List.append_assoc,
      List.cons_append]

theorem session_after_cycles (pid dlen : Int) (cycles : List Cycle) (rs : List Int)
    (ds : List Datagram) :
    ∀ (st : Counters) (out : List Byte), st.nreceived = st.nsent → 0 ≤ st.nsent →
      st.nsent + cycles.length ≤ 2147483647 →
      (∀ c ∈ cycles, 0 < c.send_result ∧ (∀ d ∈ c.discards, ¬ accepted pid d)
        ∧ accepted pid c.reply) →
      ∃ out2 : List Byte,
        (session pid dlen st out (sendResults cycles ++ rs)
            (datagramStream cycles ++ ds)).counters
          = (session pid dlen ⟨st.nsent + cycles.length, st.nsent + cycles.length⟩ out2
              rs ds).counters := by
  induction cycles with
  | nil =>
    intro st out heq _ _ _
    refine ⟨out, ?_⟩
    have hst : (⟨st.nsent + ([] : List Cycle).length, st.nsent + ([] : List Cycle).length⟩
        : Counters) = st := by
      cases st
      simp only [List.length_nil, Nat.cast_zero, Int.add_zero, Counters.mk.injEq,
        true_and] at heq ⊢
      exact heq.symm
    rw [hst]
    rfl
  | cons c cs ih =>
    intro st out heq h0 hb hall
    obtain ⟨hs, hd, hr⟩ := hall c (List.mem_cons_self _ _)
    have hrest : ∀ e ∈ cs, 0 < e.send_result ∧ (∀ d ∈ e.discards, ¬ accepted pid d)
        ∧ accepted pid e.reply := fun e he => hall e (List.mem_cons_of_mem _ he)
    have hlen : ((c :: cs).length : Int) = cs.length + 1 := by
      rw [List.length_cons]; push_cast; rfl
    have hp : (ping st pid dlen out c.send_result).counters
        = ⟨st.nsent + 1, st.nreceived⟩ := by
      rw [counters_of_ping, if_pos hs, wrapInt32_of_range _ (by omega) (by omega)]
    have hrc := receive_cycle pid ⟨st.nsent + 1, st.nreceived⟩ (by simp [heq])
      c.discards hd c.reply hr (datagramStream cs ++ ds)
    obtain ⟨out2, hi⟩ := ih ⟨st.nsent + 1, st.nsent + 1⟩
      (ping st pid dlen out c.send_result).out_buffer rfl (by simp only []; omega)
      (by simp only []; omega) hrest
    refine ⟨out2, ?_⟩
    have he : (⟨st.nsent + (c :: cs).length, st.nsent + (c :: cs).length⟩ : Counters)
        = ⟨st.nsent + 1 + cs.length, st.nsent + 1 + cs.length⟩ := by
      rw [hlen]; congr 1 <;> ring
    rw [he, ← hi]
    simp only [sendResults, datagramStream, List.cons_append, List.append_assoc, session,
      hp, hrc, if_true]
    rfl

theorem session_single_nsent (pid dlen : Int) (st : Counters) (out : List Byte) (r : Int)
    (ds : List Datagram) :
    (session pid dlen st out [r] ds).counters.nsent
      = (ping st pid dlen out r).counters.nsent := by
  have hns := receive_nsent pid ds (ping st pid dlen out r).counters
  rw [session]
  simp only []
  split
  · simp only [session]
    exact hns
  · exact hns

theorem session_replicate_succ (pid dlen : Int) (out : List Byte) (c : Cycle) (m n : Nat)
    (hc : 0 < c.send_result ∧ (∀ d ∈ c.discards, ¬ accepted pid d) ∧ accepted pid c.reply)
    (hm : m = n + 1) (hn : (n : Int) ≤ 2147483647) :
    (session pid dlen initial out (sendResults (List.replicate m c))
        (datagramStream (List.replicate m c))).counters.nsent
      = wrapInt32 ((n : Int) + 1) := by
  subst hm
  have hall : ∀ e ∈ List.replicate n c, 0 < e.send_result
      ∧ (∀ d ∈ e.discards, ¬ accepted pid d) ∧ accepted pid e.reply := by
    intro e he
    rw [List.eq_of_mem_replicate he]
    exact hc
  obtain ⟨out2, h⟩ := session_after_cycles pid dlen (List.replicate n c) (sendResults [c])
    (datagramStream [c]) initial out rfl (by decide)
    (by rw [List.length_replicate]; simp only [initial]; omega) hall
  rw [List.replicate_succ', sendResults_append, datagramStream_append, h,
    List.length_replicate]
  simp only [sendResults, initial, Int.zero_add]
  rw [session_single_nsent, counters_of_ping, if_pos hc.1]

theorem receive_own_reply (pid : Int) (out : List Byte) (hout : out.length = PACKET_SIZE)
    (r : Int) (hr : 0 < r) (P : Nat) (d : Datagram) (hl : d.len = 28)
    (hh : ip_hl d.buf = 5) (ht : icmp_type d.buf 20 = ICMP_ECHOREPLY)
    (hid : icmp_id d.buf 20 = icmp_id (datagramOf ((ping initial pid P out r).out_buffer,
      (ping initial pid P out r).packet_size)) 0) :
    (0 ≤ pid → pid < 65536 →
      (receive pid (ping initial pid P out r).counters [d]).counters = ⟨1, 1⟩
        ∧ (receive pid (ping initial pid P out r).counters [d]).returned = true)
    ∧ (65536 ≤ pid →
      (receive pid (ping initial pid P out r).counters [d]).counters = ⟨1, 0⟩
        ∧ (receive pid (ping initial pid P out r).counters [d]).returned = false) := by
  have hb := ping_buffer initial pid P out r
  have hf := pack_fields out initial.nsent pid P hout
  have hc : (ping initial pid P out r).counters = ⟨1, 0⟩ := by
    rw [counters_of_ping, if_pos hr]; decide
  rw [hb.1, hb.2, hf.2.2.1] at hid
  have hne : (Counters.mk 1 0).nreceived ≠ (Counters.mk 1 0).nsent := by decide
  rw [hc]
  constructor
  · intro h0 h1
    have hu : (toU16 pid : Int) = pid := by unfold toU16; omega
    have ha : accepted pid d := by
      refine ⟨by omega, ?_, ?_, ?_⟩
      · rw [hh, hl]; decide
      · rw [hh]; exact ht
      · rw [hh]
        show (icmp_id d.buf 20 : Int) = pid
        rw [hid, hu]
    rw [receive, if_pos hne, receiveIter_of_accepted pid _ d ha]
    simp [receive]
  · intro h1
    have hu : (toU16 pid : Int) < 65536 := by unfold toU16; omega
    have ha : ¬ accepted pid d := by
      intro ha
      have h4 := ha.2.2.2
      rw [hh] at h4
      have h5 : (icmp_id d.buf 20 : Int) = pid := h4
      rw [hid] at h5
      omega
    rw [receive, if_pos hne, receiveIter_of_not_accepted pid _ d ha]
    simp [receive]

theorem statistics_of_sent (st : Counters) (h : st.nsent ≠ 0) :
    statistics st
      = some (⟨st.nsent, st.nreceived, Int.tdiv (st.nsent - st.nreceived) st.nsent * 100⟩, 0) := by
  simp [statistics, lossPercent, h]

/-! ## C1: `checksum` against RFC 1071 -/

/-- C1 (amended): for every byte buffer of at most 65537 bytes (even or odd
length, the empty buffer and all-zero buffers included), `checksum` over the
whole buffer equals the RFC 1071 Internet checksum of the buffer. -/
theorem checksum_eq_rfc1071 (b : List Byte) (h : b.length ≤ 65537) :
    checksum b (b.length : Int) = rfc1071 b := by
  have hs := hostWords_sum_le b
  rw [checksum_eq_foldCarries, rfc1071_eq, foldCarries_of_small _ (by omega)]

/-- Witness of C1 (amended) on an odd-length buffer. -/
theorem checksum_eq_rfc1071_witness :
    ([0x45, 0xff, 0x03] : List Byte).length ≤ 65537 ∧
      checksum [0x45, 0xff, 0x03] (([0x45, 0xff, 0x03] : List Byte).length : Int)
        = rfc1071 [0x45, 0xff, 0x03] :=
  ⟨by decide, checksum_eq_rfc1071 [0x45, 0xff, 0x03] (by decide)⟩

/-- C1 as stated fails: on the buffer of 65538 bytes `0xFF` the 32-bit
accumulator of `checksum` passes `2^31`; `checksum` returns 1 and the RFC 1071
checksum is 0. -/
theorem checksum_ne_rfc1071_at_65538 :
    checksum (List.replicate 65538 (255 : Byte))
        ((List.replicate 65538 (255 : Byte)).length : Int) = 1
      ∧ rfc1071 (List.replicate 65538 (255 : Byte)) = 0 := by
  have hw : hostWords (List.replicate 65538 (255 : Byte)) = List.replicate 32769 65535 :=
    hostWords_replicate 32769
  have hsum : (hostWords (List.replicate 65538 (255 : Byte))).sum = 2147516415 := by
    rw [hw, List.sum_replicate]; rfl
  constructor
  · rw [checksum_eq_foldCarries, hsum]; decide
  · rw [rfc1071_eq, hsum]; decide

/-! ## C2: reply filtering -/

/-- C3 at the process id 70000: `ping` sends the request for sequence 0 and
writes the identifier field 4464 (`70000 mod 65536`); the Echo Reply of 28
bytes with a 20-byte IP header, sequence 0 and that same identifier field is
discarded: `nreceived` stays 0 and `receive` does not return. -/
theorem own_reply_discarded_at_pid_70000 :
    (ping initial 70000 56 (List.replicate 1024 0) 64).counters = ⟨1, 0⟩
    ∧ icmp_id (ping initial 70000 56 (List.replicate 1024 0) 64).out_buffer 0 = 4464
    ∧ icmp_seq (ping initial 70000 56 (List.replicate 1024 0) 64).out_buffer 0 = 0
    ∧ ip_hl ([0x45] ++ List.replicate 19 0 ++ [0, 0, 0x8f, 0xee, 0x70, 0x11, 0, 0]) = 5
    ∧ icmp_type ([0x45] ++ List.replicate 19 0 ++ [0, 0, 0x8f, 0xee, 0x70, 0x11, 0, 0]) 20
        = ICMP_ECHOREPLY
    ∧ icmp_seq ([0x45] ++ List.replicate 19 0 ++ [0, 0, 0x8f, 0xee, 0x70, 0x11, 0, 0]) 20 = 0
    ∧ icmp_id ([0x45] ++ List.replicate 19 0 ++ [0, 0, 0x8f, 0xee, 0x70, 0x11, 0, 0]) 20
        = icmp_id (ping initial 70000 56 (List.replicate 1024 0) 64).out_buffer 0
    ∧ receive 70000 (ping initial 70000 56 (List.replicate 1024 0) 64).counters
        [⟨28, [0x45] ++ List.replicate 19 0 ++ [0, 0, 0x8f, 0xee, 0x70, 0x11, 0, 0]⟩]
        = ⟨⟨1, 0⟩, [], [], false⟩ := by
  refine ⟨by decide, by decide, by decide, by decide, by decide, by decide, by decide,
    by decide⟩

/-! ## C4: the stored checksum validates -/

/-- C4: for every buffer of 4 to 1024 bytes whose bytes 2 and 3 are zero,
storing its checksum in bytes 2-3 in host order gives a buffer whose checksum
is 0; and for every sent counter, process id and payload length `P` with
`8 + P ≤ 1024`, the packet that `ping` passes to `sendto` has `8 + P` bytes
and its checksum over these bytes is 0. -/
theorem checksum_roundtrip (b : List Byte) (h4 : 4 ≤ b.length) (hlen : b.length ≤ 1024)
    (h2 : readByte b 2 = 0) (h3 : readByte b 3 = 0)
    (st : Counters) (pid : Int) (P : Nat) (out : List Byte) (r : Int)
    (hout : out.length = PACKET_SIZE) (hP : 8 + P ≤ 1024) :
    checksum (writeWord b 2 (checksum b (b.length : Int))) (b.length : Int) = 0
    ∧ (ping st pid P out r).packet_size = ((8 + P : Nat) : Int)
    ∧ checksum (ping st pid P out r).out_buffer (ping st pid P out r).packet_size = 0
    ∧ (datagramOf ((ping st pid P out r).out_buffer,
        (ping st pid P out r).packet_size)).length = 8 + P
    ∧ checksum (datagramOf ((ping st pid P out r).out_buffer,
        (ping st pid P out r).packet_size)) ((8 + P : Nat) : Int) = 0 := by
  have hb := ping_buffer st pid P out r
  have hv := pack_validates out st.nsent pid P hout hP
  rw [hb.1, hb.2]
  exact ⟨checksum_store_validates b h4 hlen h2 h3, hv.1, hv.2.2.1, hv.2.1, hv.2.2.2⟩

/-- Witness of C4: an odd-length buffer of 7 bytes, and the default packet of
`ping` for the counters (3, 3) and the process id 1234. -/
theorem checksum_roundtrip_witness :
    checksum (writeWord [8, 0, 0, 0, 0xd2, 0x04, 0x07]
        2 (checksum [8, 0, 0, 0, 0xd2, 0x04, 0x07]
          (([8, 0, 0, 0, 0xd2, 0x04, 0x07] : List Byte).length : Int)))
        (([8, 0, 0, 0, 0xd2, 0x04, 0x07] : List Byte).length : Int) = 0
    ∧ (ping ⟨3, 3⟩ 1234 (56 : Nat) (List.replicate 1024 0) 64).packet_size
        = ((8 + 56 : Nat) : Int)
    ∧ checksum (ping ⟨3, 3⟩ 1234 (56 : Nat) (List.replicate 1024 0) 64).out_buffer
        (ping ⟨3, 3⟩ 1234 (56 : Nat) (List.replicate 1024 0) 64).packet_size = 0
    ∧ (datagramOf ((ping ⟨3, 3⟩ 1234 (56 : Nat) (List.replicate 1024 0) 64).out_buffer,
        (ping ⟨3, 3⟩ 1234 (56 : Nat) (List.replicate 1024 0) 64).packet_size)).length
        = 8 + 56
    ∧ checksum (datagramOf
        ((ping ⟨3, 3⟩ 1234 (56 : Nat) (List.replicate 1024 0) 64).out_buffer,
          (ping ⟨3, 3⟩ 1234 (56 : Nat) (List.replicate 1024 0) 64).packet_size))
        ((8 + 56 : Nat) : Int) = 0 :=
  checksum_roundtrip [8, 0, 0, 0, 0xd2, 0x04, 0x07] (by decide) (by decide) (by decide)
    (by decide) ⟨3, 3⟩ 1234 56 (List.replicate 1024 0) 64 (List.length_replicate 1024 (0 : Byte)) (by decide)

/-! ## C5: the fields of the Echo Request -/

/-- C5: for a sequence `S` and an identifier `I` in the 16-bit range and a
payload length `P` with `8 + P ≤ 1024`, the Echo Request that `ping` builds
from the sent counter `S` and the process id `I` has exactly `8 + P` bytes (64
for the default payload length), and its fields read at offset 0 are type
Echo Request (8, not Echo Reply, so the type test of `receive` discards any
datagram carrying it), code 0, sequence `S` and identifier `I`. -/
theorem ping_request_fields (S I : Int) (hS0 : 0 ≤ S) (hS : S < 65536) (hI0 : 0 ≤ I)
    (hI : I < 65536) (P : Nat) (hP : 8 + P ≤ 1024) (out : List Byte)
    (hout : out.length = PACKET_SIZE) (nreceived r : Int) :
    (datagramOf ((ping ⟨S, nreceived⟩ I P out r).out_buffer,
        (ping ⟨S, nreceived⟩ I P out r).packet_size)).length = 8 + P
    ∧ (P = data_length →
        (datagramOf ((ping ⟨S, nreceived⟩ I P out r).out_buffer,
          (ping ⟨S, nreceived⟩ I P out r).packet_size)).length = 64)
    ∧ icmp_type (datagramOf ((ping ⟨S, nreceived⟩ I P out r).out_buffer,
        (ping ⟨S, nreceived⟩ I P out r).packet_size)) 0 = 8
    ∧ icmp_type (datagramOf ((ping ⟨S, nreceived⟩ I P out r).out_buffer,
        (ping ⟨S, nreceived⟩ I P out r).packet_size)) 0 ≠ ICMP_ECHOREPLY
    ∧ (∀ (pid : Int) (st : Counters) (d : Datagram),
        icmp_type d.buf (ip_hl d.buf * 4)
          = icmp_type (datagramOf ((ping ⟨S, nreceived⟩ I P out r).out_buffer,
              (ping ⟨S, nreceived⟩ I P out r).packet_size)) 0 →
        receiveIter pid st d = (st, none))
    ∧ icmp_code (datagramOf ((ping ⟨S, nreceived⟩ I P out r).out_buffer,
        (ping ⟨S, nreceived⟩ I P out r).packet_size)) 0 = 0
    ∧ (icmp_seq (datagramOf ((ping ⟨S, nreceived⟩ I P out r).out_buffer,
        (ping ⟨S, nreceived⟩ I P out r).packet_size)) 0 : Int) = S
    ∧ (icmp_id (datagramOf ((ping ⟨S, nreceived⟩ I P out r).out_buffer,
        (ping ⟨S, nreceived⟩ I P out r).packet_size)) 0 : Int) = I := by
  have hb := ping_buffer ⟨S, nreceived⟩ I P out r
  have hv := pack_validates out S I P hout hP
  have hf := pack_fields out S I P hout
  have hSu : (toU16 S : Int) = S := by unfold toU16; omega
  have hIu : (toU16 I : Int) = I := by unfold toU16; omega
  rw [hb.1, hb.2]
  refine ⟨hv.2.1, ?_, hf.1, ?_, ?_, hf.2.1, ?_, ?_⟩
  · intro hd
    rw [hv.2.1, hd]; rfl
  · rw [hf.1]; decide
  · intro pid st d hd
    rw [hf.1] at hd
    unfold receiveIter
    split
    · rfl
    · rw [if_pos (Or.inr (Or.inl (by rw [hd]; decide)))]
  · rw [hf.2.2.2, hSu]
  · rw [hf.2.2.1, hIu]

/-- Witness of C5: sequence 3, identifier 1234, the default payload length. -/
theorem ping_request_fields_witness :
    (datagramOf ((ping ⟨3, 3⟩ 1234 (56 : Nat) (List.replicate 1024 0) 64).out_buffer,
        (ping ⟨3, 3⟩ 1234 (56 : Nat) (List.replicate 1024 0) 64).packet_size)).length
        = 8 + 56
    ∧ (icmp_seq (datagramOf
        ((ping ⟨3, 3⟩ 1234 (56 : Nat) (List.replicate 1024 0) 64).out_buffer,
          (ping ⟨3, 3⟩ 1234 (56 : Nat) (List.replicate 1024 0) 64).packet_size)) 0 : Int)
        = 3
    ∧ (icmp_id (datagramOf
        ((ping ⟨3, 3⟩ 1234 (56 : Nat) (List.replicate 1024 0) 64).out_buffer,
          (ping ⟨3, 3⟩ 1234 (56 : Nat) (List.replicate 1024 0) 64).packet_size)) 0 : Int)
        = 1234 :=
  have h := ping_request_fields 3 1234 (by decide) (by decide) (by decide) (by decide) 56
    (by decide) (List.replicate 1024 0) (List.length_replicate 1024 (0 : Byte)) 3 64
  ⟨h.1, h.2.2.2.2.2.2.1, h.2.2.2.2.2.2.2⟩

/-! ## C6: the loss percentage -/

/-- C6 at `nsent = 10`, `nreceived = 7`: the loss expression evaluates to 0,
in the final report of `statistics` and in the line that `receive` prints for
the seventh reply alike.  The same holds in the state `nsent = 2`,
`nreceived = 1`, which the session loop reaches while the second request is
outstanding: the final report there states a loss of 0. -/
theorem loss_at_10_sent_7_received :
    lossPercent 10 7 = some 0
    ∧ statistics ⟨10, 7⟩ = some (⟨10, 7, 0⟩, 0)
    ∧ (session 1234 56 initial (List.replicate 1024 0) [64, 64]
        [⟨28, [0x45] ++ List.replicate 19 0 ++ [0, 0, 0, 0, 0xd2, 0x04, 0, 0]⟩]).counters
        = ⟨2, 1⟩
    ∧ statistics ⟨2, 1⟩ = some (⟨2, 1, 0⟩, 0)
    ∧ (receiveIter 1234 ⟨10, 6⟩
        ⟨28, [0x45] ++ List.replicate 19 0 ++ [0, 0, 0, 0, 0xd2, 0x04, 9, 0]⟩)
        = (⟨10, 7⟩, some ⟨8, 9, 10, 7, some 0⟩) := by
  refine ⟨by decide, by decide, by decide, by decide, by decide⟩

/-! ## C7: the send result -/

/-- C7 (amended): for every state, and every result `r` of `sendto`, with
`nsent` an `int` below `2^31 - 1` when `r > 0`, one call of `ping` leaves
`nreceived` unchanged, sets `nsent` to `nsent + 1` if `r > 0` and leaves it
unchanged if `r ≤ 0`.  A send failure is logged and `ping` returns with the
state it was called in: the session loop goes on with `receive` on that state,
and, called as it is with `nreceived = nsent`, `receive` returns at once and
the loop proceeds to the next cycle with the same counters and the same
pending datagrams. -/
theorem ping_counters (st : Counters) (pid dlen : Int) (out : List Byte) (r : Int)
    (h : 0 < r → -2147483648 ≤ st.nsent ∧ st.nsent < 2147483647) :
    (ping st pid dlen out r).counters.nreceived = st.nreceived
    ∧ (ping st pid dlen out r).counters.nsent = (if 0 < r then st.nsent + 1 else st.nsent)
    ∧ (ping st pid dlen out r).stderr
        = (if 0 < r then [] else ["[ERROR] Sendto error."])
    ∧ (r ≤ 0 → (ping st pid dlen out r).counters = st
        ∧ ∀ (rs : List Int) (ds : List Datagram),
          (session pid dlen st out (r :: rs) ds).counters
            = if (receive pid st ds).returned then
                (session pid dlen (receive pid st ds).counters
                  (ping st pid dlen out r).out_buffer rs (receive pid st ds).rest).counters
              else (receive pid st ds).counters)
    ∧ (r ≤ 0 → st.nreceived = st.nsent → ∀ (rs : List Int) (ds : List Datagram),
        session pid dlen st out (r :: rs) ds
          = session pid dlen st (ping st pid dlen out r).out_buffer rs ds) := by
  have hc := counters_of_ping st pid dlen out r
  refine ⟨?_, ?_, ?_, ?_, ?_⟩
  · rw [hc]; split <;> rfl
  · rw [hc]
    by_cases hr : 0 < r
    · rw [if_pos hr, if_pos hr]
      exact wrapInt32_of_range _ (by have := h hr; omega) (by have := h hr; omega)
    · rw [if_neg hr, if_neg hr]
  · unfold ping pingTry
    by_cases hr : r ≤ 0
    · have h2 : ¬ 0 < r := by omega
      simp [hr, h2]
    · have h2 : 0 < r := by omega
      simp [hr, h2]
  · intro hr
    have hst : (ping st pid dlen out r).counters = st := by
      rw [hc, if_neg (by omega)]
    refine ⟨hst, ?_⟩
    intro rs ds
    rw [session]
    simp only [hst]
    split <;> rfl
  · intro hr heq rs ds
    have hst : (ping st pid dlen out r).counters = st := by
      rw [hc, if_neg (by omega)]
    rw [session]
    simp only [hst, receive_of_eq pid st ds heq, if_true, List.nil_append]

/-- Witness of C7 (amended): a successful send from the counters (3, 3). -/
theorem ping_counters_witness :
    ((0 : Int) < 64 → (-2147483648 : Int) ≤ (Counters.mk 3 3).nsent
        ∧ (Counters.mk 3 3).nsent < 2147483647)
    ∧ (ping ⟨3, 3⟩ 1234 56 (List.replicate 1024 0) 64).counters.nsent
        = (if (0 : Int) < 64 then (Counters.mk 3 3).nsent + 1 else (Counters.mk 3 3).nsent) :=
  ⟨by decide, (ping_counters ⟨3, 3⟩ 1234 56 (List.replicate 1024 0) 64 (by decide)).2.1⟩

/-- C7 as stated fails at `nsent = 2^31 - 1`: after a successful send `nsent++`
leaves `-2^31`, not `nsent + 1`. -/
theorem ping_wraps_at_int_max :
    (ping ⟨2147483647, 2147483647⟩ 1234 56 (List.replicate 1024 0) 64).counters
        = ⟨-2147483648, 2147483647⟩
    ∧ (ping ⟨2147483647, 2147483647⟩ 1234 56 (List.replicate 1024 0) 64).counters.nsent
        ≠ (Counters.mk 2147483647 2147483647).nsent + 1 := by
  refine ⟨by decide, by decide⟩

/-! ## C8: counters after successful cycles -/

/-- C8 (amended): from the initial counters, after `N` cycles, `1 ≤ N < 2^31`,
in each of which the send succeeds and the drain loop receives any number of
discarded datagrams followed by one matching reply, `nsent = nreceived = N`,
every per-reply report has loss 0, and the final report states `N`
transmitted, `N` received, loss 0 with exit status 0 (for `N = 3`: 3, 3 and
0). -/
theorem counters_after_cycles (pid dlen : Int) (out : List Byte) (cycles : List Cycle)
    (N : Nat) (hN : 1 ≤ N) (hN2 : N < 2147483648) (hlen : cycles.length = N)
    (hall : ∀ c ∈ cycles, 0 < c.send_result ∧ (∀ d ∈ c.discards, ¬ accepted pid d)
      ∧ accepted pid c.reply) :
    (session pid dlen initial out (sendResults cycles) (datagramStream cycles)).counters
        = ⟨N, N⟩
    ∧ (session pid dlen initial out (sendResults cycles) (datagramStream cycles)).blocked
        = false
    ∧ (session pid dlen initial out (sendResults cycles)
        (datagramStream cycles)).replies.length = N
    ∧ (∀ rep ∈ (session pid dlen initial out (sendResults cycles)
        (datagramStream cycles)).replies, rep.loss = some 0)
    ∧ statistics (session pid dlen initial out (sendResults cycles)
        (datagramStream cycles)).counters = some (⟨N, N, 0⟩, 0)
    ∧ (N = 3 → statistics (session pid dlen initial out (sendResults cycles)
        (datagramStream cycles)).counters = some (⟨3, 3, 0⟩, 0)) := by
  have h := session_cycles pid dlen cycles initial out rfl (by decide)
    (by rw [hlen]; simp only [initial]; omega) hall
  have hc : (session pid dlen initial out (sendResults cycles)
      (datagramStream cycles)).counters = ⟨N, N⟩ := by
    rw [h.1, hlen]; simp [initial]
  have hst : statistics ⟨(N : Int), (N : Int)⟩ = some (⟨N, N, 0⟩, 0) := by
    have hl : lossPercent (N : Int) (N : Int) = some 0 := lossPercent_self _ (by omega)
    simp only [statistics, hl]
  refine ⟨hc, h.2.1, ?_, ?_, ?_, ?_⟩
  · rw [h.2.2.1, hlen]
  · intro rep hrep
    exact (h.2.2.2 rep hrep).1
  · rw [hc, hst]
  · intro h3
    rw [hc, hst, h3]
    rfl

/-- Witness of C8 (amended): three cycles for the process 1234; the second one
first receives a failed `recvfrom`, an Echo Request and a reply for another
identifier. -/
theorem counters_after_cycles_witness :
    statistics (session 1234 56 initial (List.replicate 1024 0)
      (sendResults
        [⟨64, [], ⟨28, [0x45] ++ List.replicate 19 0 ++ [0, 0, 0, 0, 0xd2, 0x04, 0, 0]⟩⟩,
         ⟨64, [⟨-1, []⟩,
               ⟨28, [0x45] ++ List.replicate 19 0 ++ [8, 0, 0, 0, 0xd2, 0x04, 1, 0]⟩,
               ⟨28, [0x45] ++ List.replicate 19 0 ++ [0, 0, 0, 0, 0xd3, 0x04, 1, 0]⟩],
           ⟨28, [0x45] ++ List.replicate 19 0 ++ [0, 0, 0, 0, 0xd2, 0x04, 1, 0]⟩⟩,
         ⟨64, [], ⟨28, [0x45] ++ List.replicate 19 0 ++ [0, 0, 0, 0, 0xd2, 0x04, 2, 0]⟩⟩])
      (datagramStream
        [⟨64, [], ⟨28, [0x45] ++ List.replicate 19 0 ++ [0, 0, 0, 0, 0xd2, 0x04, 0, 0]⟩⟩,
         ⟨64, [⟨-1, []⟩,
               ⟨28, [0x45] ++ List.replicate 19 0 ++ [8, 0, 0, 0, 0xd2, 0x04, 1, 0]⟩,
               ⟨28, [0x45] ++ List.replicate 19 0 ++ [0, 0, 0, 0, 0xd3, 0x04, 1, 0]⟩],
           ⟨28, [0x45] ++ List.replicate 19 0 ++ [0, 0, 0, 0, 0xd2, 0x04, 1, 0]⟩⟩,
         ⟨64, [],
           ⟨28, [0x45] ++ List.replicate 19 0 ++ [0, 0, 0, 0, 0xd2, 0x04, 2, 0]⟩⟩])).counters
      = some (⟨3, 3, 0⟩, 0) :=
  (counters_after_cycles 1234 56 (List.replicate 1024 0)
    [⟨64, [], ⟨28, [0x45] ++ List.replicate 19 0 ++ [0, 0, 0, 0, 0xd2, 0x04, 0, 0]⟩⟩,
     ⟨64, [⟨-1, []⟩,
           ⟨28, [0x45] ++ List.replicate 19 0 ++ [8, 0, 0, 0, 0xd2, 0x04, 1, 0]⟩,
           ⟨28, [0x45] ++ List.replicate 19 0 ++ [0, 0, 0, 0, 0xd3, 0x04, 1, 0]⟩],
       ⟨28, [0x45] ++ List.replicate 19 0 ++ [0, 0, 0, 0, 0xd2, 0x04, 1, 0]⟩⟩,
     ⟨64, [], ⟨28, [0x45] ++ List.replicate 19 0 ++ [0, 0, 0, 0, 0xd2, 0x04, 2, 0]⟩⟩]
    3 (by decide) (by decide) (by decide) (by decide)).2.2.2.2.2 rfl

/-- C8 as stated fails at `N = 2^31`: after `2^31` cycles in each of which the
send succeeds and the matching reply arrives, `nsent` is `-2^31`, not `2^31`:
the last `nsent++` starts from `2^31 - 1`. -/
theorem counters_after_2147483648_cycles :
    (List.replicate 2147483648 (Cycle.mk 64 []
        ⟨28, [0x45] ++ List.replicate 19 0 ++ [0, 0, 0, 0, 0xd2, 0x04, 0, 0]⟩)).length
        = 2147483648
    ∧ (∀ c ∈ List.replicate 2147483648 (Cycle.mk 64 []
        ⟨28, [0x45] ++ List.replicate 19 0 ++ [0, 0, 0, 0, 0xd2, 0x04, 0, 0]⟩),
        0 < c.send_result ∧ (∀ d ∈ c.discards, ¬ accepted 1234 d) ∧ accepted 1234 c.reply)
    ∧ (session 1234 56 initial (List.replicate 1024 0)
        (sendResults (List.replicate 2147483648 (Cycle.mk 64 []
          ⟨28, [0x45] ++ List.replicate 19 0 ++ [0, 0, 0, 0, 0xd2, 0x04, 0, 0]⟩)))
        (datagramStream (List.replicate 2147483648 (Cycle.mk 64 []
          ⟨28, [0x45] ++ List.replicate 19 0 ++ [0, 0, 0, 0, 0xd2, 0x04, 0, 0]⟩)))).counters.nsent
        = -2147483648 := by
  have hc : (0 : Int) < (Cycle.mk 64 []
        ⟨28, [0x45] ++ List.replicate 19 0 ++ [0, 0, 0, 0, 0xd2, 0x04, 0, 0]⟩).send_result
      ∧ (∀ d ∈ (Cycle.mk 64 []
        ⟨28, [0x45] ++ List.replicate 19 0 ++ [0, 0, 0, 0, 0xd2, 0x04, 0, 0]⟩).discards,
          ¬ accepted 1234 d)
      ∧ accepted 1234 (Cycle.mk 64 []
        ⟨28, [0x45] ++ List.replicate 19 0 ++ [0, 0, 0, 0, 0xd2, 0x04, 0, 0]⟩).reply := by
    decide
  have hw : wrapInt32 (((2147483647 : Nat) : Int) + 1) = -2147483648 := by decide
  refine ⟨List.length_replicate _ _, ?_, ?_⟩
  · intro c hmem
    rw [List.eq_of_mem_replicate hmem]
    exact hc
  · exact (session_replicate_succ 1234 56 (List.replicate 1024 0) _ 2147483648 2147483647
      hc (by norm_num) (by decide)).trans hw

/-! ## C9: the final report before the first successful send -/

/-- C9 at the initial counters: the state `nsent = 0`, `nreceived = 0` is
reachable (at program start, and again after a cycle whose send fails), and
there the loss expression of `statistics` has a zero divisor, so no report
and no exit status result. -/
theorem statistics_divides_by_zero_at_start :
    Reachable 1234 56 initial
    ∧ (session 1234 56 initial (List.replicate 1024 0) [-1] []).counters = initial
    ∧ (session 1234 56 initial (List.replicate 1024 0) [-1] []).blocked = false
    ∧ lossPercent initial.nsent initial.nreceived = none
    ∧ statistics initial = none := by
  refine ⟨⟨[], [], [], rfl⟩, by decide, by decide, by decide, by decide⟩

/-! ## C10: the invariant of the counters -/

end Ping
